import Mathlib

set_option linter.unusedVariables false

/-! Verification of the bid-document assembly engine: the proportional
scaling of baseline schedules, the target-total parser, the content
formatters and dispatcher, and the placeholder-substitution engine. -/

/-! ### Scaling engine (generators, timeline and personnel charts) -/

/-- Banker's rounding (round half to even) on rationals, the behaviour of
Python's builtin round applied to the scaled day counts. -/
def pyRound (q : ℚ) : ℤ :=
  if q - ((⌊q⌋ : ℤ) : ℚ) < 1/2 then ⌊q⌋
  else if (1:ℚ)/2 < q - ((⌊q⌋ : ℤ) : ℚ) then ⌊q⌋ + 1
  else if ⌊q⌋ % 2 = 0 then ⌊q⌋ else ⌊q⌋ + 1

/-- Scaling step of the chart generators: with the target over the baseline
total as the factor, each weight becomes max(1, round(x * factor)).  This is
the list comprehension assigned to scaled_timeline, and the same formula the
timeline chart applies per element. -/
def scaled_timeline (timeline_base : List ℚ) (target_days : ℤ) : List ℤ :=
  let r : ℚ := (target_days : ℚ) / timeline_base.sum
  timeline_base.map (fun x => max 1 (pyRound (x * r)))

/-! ### Target-total parser (extract_days_from_time) -/

/-- Maximal runs of decimal digits in order of appearance, the result of
re.findall of one-or-more digits over the input. -/
def digitRuns : List Char → List (List Char)
  | [] => []
  | c :: cs =>
    if c.isDigit then (c :: cs.takeWhile Char.isDigit) :: digitRuns (cs.dropWhile Char.isDigit)
    else digitRuns cs
termination_by l => l.length
decreasing_by
  · simp only [List.length_cons]
    exact Nat.lt_succ_of_le (List.Sublist.length_le (List.dropWhile_sublist _))
  · simp only [List.length_cons]
    exact Nat.lt_succ_self _

/-- Decimal value of a digit string, as Python's int() on a run of digits. -/
def int_of_digits (s : List Char) : ℕ :=
  s.foldl (fun n c => 10 * n + (c.toNat - 48)) 0

/-- Parser of the completion-time text: the first run of digits is taken as
the day count, with 120 as the fallback when no digits occur. -/
def extract_days_from_time (s : List Char) : ℕ :=
  match digitRuns s with
  | [] => 120
  | n :: _ => int_of_digits n

/-! ### Document model (the python-docx object graph the engine mutates) -/

/-- One formatting run of a paragraph: its text and the run-level bold,
italic, font-name and font-size properties (None meaning inherited). -/
structure Run where
  text : List Char
  bold : Option Bool
  italic : Option Bool
  fontName : Option String
  fontSize : Option ℕ
deriving DecidableEq

/-- One paragraph: runs plus paragraph-level properties.  Alignment codes
are the WD_ALIGN_PARAGRAPH values (0 left, 1 center, 3 justify). -/
structure Para where
  runs : List Run
  alignment : Option ℕ := none
  lineSpacing : Option ℚ := none
  firstLineIndent : Option ℚ := none
  spaceAfter : Option ℕ := none
deriving DecidableEq

/-- One table cell: width in inches, vertical alignment, paragraphs. -/
structure Cell where
  width : Option ℚ := none
  valign : Option ℕ := none
  paras : List Para
deriving DecidableEq

/-- One table: its rows of cells. -/
structure Table where
  rows : List (List Cell)
deriving DecidableEq

/-- A body-level block of a document: a paragraph or a table. -/
inductive Block where
  | para : Para → Block
  | table : Table → Block
deriving DecidableEq

/-- Concatenated text of a paragraph (paragraph.text). -/
def paraText (rs : List Run) : List Char := (rs.map Run.text).flatten

/-- Per-character bold map of a paragraph: walking the runs in order, each
character is recorded with its run's bold flag, None read as False.  This is
the char_formatting dictionary of replace_simple_text_placeholder. -/
def charBolds (rs : List Run) : List Bool :=
  (rs.map (fun r => List.replicate r.text.length (r.bold.getD false))).flatten

/-- Effective formatting state of one character. -/
structure CharFmt where
  bold : Bool
  italic : Option Bool
  font : Option String
  size : Option ℕ
deriving DecidableEq

/-- Per-character full formatting map (bold, italic, font, size). -/
def charFmts (rs : List Run) : List CharFmt :=
  (rs.map (fun r =>
    List.replicate r.text.length
      (CharFmt.mk (r.bold.getD false) r.italic r.fontName r.fontSize))).flatten

/-- Lookup in the character bold map, False beyond the end — the
char_formatting.get(i, False) access. -/
def boldAt (bm : List Bool) (i : ℕ) : Bool := bm.getD i false

/-- Opening brace character. -/
def lbrace : Char := Char.ofNat 123

/-- Closing brace character. -/
def rbrace : Char := Char.ofNat 125

/-- Placeholder tag for a key, two braces on each side. -/
def tagL (key : List Char) : List Char := lbrace :: lbrace :: key ++ [rbrace, rbrace]

/-- Placeholder tag of a string key. -/
def tagOf (key : String) : List Char := tagL key.toList

/-- A key with no brace characters (every real placeholder key). -/
def braceFree (key : List Char) : Prop := ∀ c ∈ key, c ≠ lbrace ∧ c ≠ rbrace

instance (key : List Char) : Decidable (braceFree key) := by
  unfold braceFree; infer_instance

/-- Splitting a text at the first occurrence of a pattern, as
full_text.split(tag, 1): the part before and the part after, or none when
the pattern does not occur. -/
def splitFirst (tag : List Char) : List Char → Option (List Char × List Char)
  | [] => none
  | c :: cs =>
    if tag <+: (c :: cs) then some ([], (c :: cs).drop tag.length)
    else
      match splitFirst tag cs with
      | some (b, a) => some (c :: b, a)
      | none => none

/-! ### Scalar substitution (replace_simple_text_placeholder) -/

/-- Flushing the pending uniform segment (add_segment_to_run skips empty
text). -/
def segFlush (seg : List Char) (b : Bool) : List (List Char × Bool) :=
  if seg = [] then [] else [(seg, b)]

/-- The segmentation loop of the rebuild phase: characters paired with
their bold state are grouped into maximal contiguous segments of uniform
bold state. -/
def segLoop : List (Char × Bool) → List Char → Bool → List (List Char × Bool)
  | [], seg, b => segFlush seg b
  | (c, cb) :: rest, seg, b =>
    if cb = b then segLoop rest (seg ++ [c]) b
    else segFlush seg b ++ segLoop rest [c] cb

/-- Characters of a text paired with the bold state at their original
positions, starting at a given offset. -/
def pairBolds (bm : List Bool) : ℕ → List Char → List (Char × Bool)
  | _, [] => []
  | i, c :: cs => (c, boldAt bm i) :: pairBolds bm (i + 1) cs

/-- Per-character bold states contributed by a segment list. -/
def segBolds (segs : List (List Char × Bool)) : List Bool :=
  (segs.map (fun s => List.replicate s.1.length s.2)).flatten

/-- Writing one segment into a reused run: text and bold from the segment,
font forced to Times New Roman 14; italic is left as the run had it. -/
def setRunTo (r : Run) (s : List Char × Bool) : Run :=
  { r with
    text := s.1, bold := some s.2,
    fontName := some ("Times New Roman"), fontSize := some 14 }

/-- A freshly added run (paragraph.add_run) carrying one segment. -/
def newRunFrom (s : List Char × Bool) : Run :=
  { text := s.1, bold := some s.2, italic := none,
    fontName := some ("Times New Roman"), fontSize := some 14 }

/-- Rebuilding the run list from the segments: existing runs are reused in
order, extra segments get fresh runs, leftover runs keep their properties
with emptied text. -/
def applySegs : List Run → List (List Char × Bool) → List Run
  | r :: rs, s :: ss => setRunTo r s :: applySegs rs ss
  | [], s :: ss => newRunFrom s :: applySegs [] ss
  | rs, [] => rs.map (fun r => { r with text := [] })

/-- Scalar substitution on one paragraph's runs: split the concatenated
text at the first occurrence of the tag, re-emit the before and after parts
in segments of uniform bold state, and insert the replacement content with
the bold state found at the tag's first character. -/
def replaceSimpleRuns (rs : List Run) (tag content : List Char) : List Run :=
  match splitFirst tag (paraText rs) with
  | none => rs
  | some (b, a) =>
    let bm := charBolds rs
    let tb := boldAt bm b.length
    let segs := segLoop (pairBolds bm 0 b) [] false ++
      (if content = [] then [] else [(content, tb)]) ++
      segLoop (pairBolds bm (b.length + tag.length) a) [] false
    applySegs rs segs

/-- Scalar substitution over the document body: the first body paragraph
whose text contains the tag is rewritten and the loop breaks; tables are
not searched (doc.paragraphs holds only body paragraphs). -/
def replaceSimpleBlocks : List Block → List Char → List Char → List Block × Bool
  | [], _, _ => ([], false)
  | Block.para p :: bs, tag, content =>
    if tag <:+: paraText p.runs then
      (Block.para { p with runs := replaceSimpleRuns p.runs tag content } :: bs, true)
    else
      let res := replaceSimpleBlocks bs tag content
      (Block.para p :: res.1, res.2)
  | Block.table t :: bs, tag, content =>
    let res := replaceSimpleBlocks bs tag content
    (Block.table t :: res.1, res.2)

/-! ### Structural substitution (replace_structured_placeholder) -/

/-- Font normalization of one run: family and size only. -/
def normalizeRun (r : Run) : Run :=
  { r with fontName := some ("Times New Roman"), fontSize := some 14 }

/-- The per-inserted-element formatting pass: runs of paragraph elements
get their font normalized; table elements receive no treatment. -/
def normalizeBlock : Block → Block
  | Block.para p => Block.para { p with runs := p.runs.map normalizeRun }
  | Block.table t => Block.table t

/-- Structural substitution: the first body paragraph containing the tag is
removed and the source document's body blocks are inserted in its place,
each passed through normalizeBlock. -/
def replaceStructuredBlocks : List Block → List Char → List Block → List Block × Bool
  | [], _, _ => ([], false)
  | Block.para p :: bs, tag, src =>
    if tag <:+: paraText p.runs then (src.map normalizeBlock ++ bs, true)
    else
      let res := replaceStructuredBlocks bs tag src
      (Block.para p :: res.1, res.2)
  | Block.table t :: bs, tag, src =>
    let res := replaceStructuredBlocks bs tag src
    (Block.table t :: res.1, res.2)

/-- All runs contained in a block, including runs inside table cells. -/
def blockRuns : Block → List Run
  | Block.para p => p.runs
  | Block.table t =>
    (t.rows.map (fun row => (row.map (fun c => (c.paras.map Para.runs).flatten)).flatten)).flatten

/-! ### Content-type formatters and dispatcher -/

/-- A structured-content element as stored in the extracted data: a type
tag, a text, and attached bullet items. -/
structure StructElem where
  etype : String
  text : String
  items : List String
deriving DecidableEq

/-- A fragment payload: a plain string, a table (headers and rows), or a
structured-content list. -/
inductive Payload where
  | str : String → Payload
  | table : List String → List (List String) → Payload
  | structured : List StructElem → Payload
deriving DecidableEq

/-- String conversion of a payload (Python str()).  A string converts to
itself; for composite payloads the exact dict rendering Python would print
is abstracted to a fixed total function, which is all the claims use. -/
def pyStr : Payload → String
  | Payload.str s => s
  | Payload.table hs rows => String.intercalate (",") (hs ++ rows.flatten)
  | Payload.structured es => String.intercalate (",") (es.map StructElem.text)

/-- The simple-text formatter: one paragraph holding the content in a
single Times New Roman 14 run (no run at all for empty content). -/
def format_simple_text (content : String) : List Block :=
  [Block.para { runs :=
    if content.toList = [] then []
    else [{ text := content.toList, bold := none, italic := none,
            fontName := some ("Times New Roman"), fontSize := some 14 }] }]

/-- Python str.strip. -/
def pyStrip (s : String) : String := s.trim

/-- Python's binary max on naturals. -/
def pyMaxN (a b : ℕ) : ℕ := if a ≤ b then b else a

/-- The per-column running maximum update of the table formatter: one row's
cell lengths folded into the accumulator (indices beyond either list are
left alone, as the source loop bounds by the shorter length). -/
def rowUpdate : List ℕ → List String → List ℕ
  | [], _ => []
  | acc, [] => acc
  | a :: rest, s :: ss => pyMaxN a s.length :: rowUpdate rest ss

/-- Maximum textual width per column over the header row and all data rows
(the max_lengths loop of format_table). -/
def maxLengths (headers : List String) (rows : List (List String)) : List ℕ :=
  rows.foldl rowUpdate (rowUpdate (List.replicate headers.length 0) headers)

/-- Python's binary max on rationals. -/
def pyMax (a b : ℚ) : ℚ := if a ≤ b then b else a

/-- Python's binary min on rationals. -/
def pyMin (a b : ℚ) : ℚ := if a ≤ b then a else b

/-- Column width allocation of format_table: proportional share of the
7-inch budget by column maximum length, clamped to the band [0.6, 2.0].
No redistribution pass follows. -/
def columnWidths (headers : List String) (rows : List (List String)) : List ℚ :=
  let ml := maxLengths headers rows
  let totalChars : ℕ := if 0 < ml.sum then ml.sum else headers.length
  ml.map (fun (len : ℕ) =>
    let w : ℚ := if 0 < totalChars then ((len : ℚ) / (totalChars : ℚ)) * 7
      else 7 / (headers.length : ℚ)
    pyMax (3/5) (pyMin w 2))

/-- Stated from the spec's words, for comparison with the source's
maxLengths: the maximum textual width observed in column i across the
header and all rows (a missing cell renders empty and so observes width
zero). -/
def specColumnMaxWidth (headers : List String) (rows : List (List String)) (i : ℕ) : ℕ :=
  max ((headers.getD i ("")).length)
    ((rows.map (fun row => (row.getD i ("")).length)).foldr max 0)

/-- The table formatter: None on empty headers or rows, otherwise a single
table block with a bold centered header row and data rows whose cells are
center-aligned for the first column and for short texts, left-aligned
otherwise. -/
def format_table (headers : List String) (rows : List (List String)) :
    Option (List Block) :=
  if headers = [] ∨ rows = [] then none
  else
    let widths := columnWidths headers rows
    let headerRow : List Cell := headers.mapIdx (fun i h =>
      { width := widths.getD i 0, valign := some 1,
        paras := [{ runs := [{ text := (pyStrip h).toList, bold := some true, italic := none,
                               fontName := some ("Times New Roman"), fontSize := some 14 }],
                    alignment := some 1 }] })
    let dataRows : List (List Cell) := rows.map (fun row =>
      (List.range headers.length).map (fun i =>
        let cellText := if i < row.length then row.getD i ("") else ""
        { width := widths.getD i 0, valign := some 1,
          paras := [{ runs := [{ text := (pyStrip cellText).toList, bold := none, italic := none,
                                 fontName := some ("Times New Roman"), fontSize := some 14 }],
                      alignment := if i = 0 ∨ (pyStrip cellText).length < 10 then some 1
                                   else some 0 }] }))
    some [Block.table ⟨headerRow :: dataRows⟩]

/-- Markdown lines rebuilt from structured elements: headings as
starred-bold lines followed by their dash bullets, standalone bullets as
dash lines, paragraphs verbatim; unknown element types contribute
nothing. -/
def structMarkdownLines (es : List StructElem) : List String :=
  (es.map (fun e =>
    if e.etype = ("heading") then
      (("**") ++ e.text ++ ("**")) :: e.items.map (fun it => ("- ") ++ it)
    else if e.etype = ("bullet_item") then [("- ") ++ e.text]
    else if e.etype = ("paragraph") then [e.text]
    else [])).flatten

/-- One markdown line rendered into a paragraph block: a fully
starred-bold line becomes a bold paragraph stripped of the stars, a dash
line a re-trimmed dash paragraph, anything else a plain paragraph; all
with first-line indent half an inch, justified alignment and 6pt
space-after. -/
def mdLineToBlock (line : String) : Block :=
  if line.startsWith ("**") ∧ line.endsWith ("**") ∧ 5 ≤ line.length then
    Block.para { runs := [{ text := ((line.drop 2).dropRight 2).toList, bold := some true,
                            italic := none, fontName := none, fontSize := none }],
                 alignment := some 3, firstLineIndent := some (1/2), spaceAfter := some 6 }
  else if line.startsWith ("- ") then
    Block.para { runs := [{ text := (("- ") ++ (line.drop 2).trim).toList, bold := none,
                            italic := none, fontName := none, fontSize := none }],
                 alignment := some 3, firstLineIndent := some (1/2), spaceAfter := some 6 }
  else
    Block.para { runs :=
                   if line.toList = [] then []
                   else [{ text := line.toList, bold := none, italic := none,
                           fontName := none, fontSize := none }],
                 alignment := some 3, firstLineIndent := some (1/2), spaceAfter := some 6 }

/-- The structured-content formatter: None on an empty element list,
otherwise the markdown round-trip — join, split into lines, strip each,
drop blanks, render each line. -/
def format_structured_content (es : List StructElem) : Option (List Block) :=
  if es = [] then none
  else
    let lines := ((String.intercalate ("\n") (structMarkdownLines es)).splitOn ("\n")).map
      String.trim
    some ((lines.filter (fun l => l ≠ (""))).map mdLineToBlock)

/-- The formatter dispatcher: routes by the declared type tag; a payload
whose shape does not fit the chosen formatter raises inside it and the
surrounding try/except turns that into None; every unknown tag falls back
to the simple-text formatter over the payload's string conversion. -/
def dispatch_formatter (ctype : String) (content : Payload) : Option (List Block) :=
  if ctype = ("simple_text") then
    match content with
    | Payload.str s => some (format_simple_text s)
    | _ => none
  else if ctype = ("table") then
    match content with
    | Payload.table hs rows => format_table hs rows
    | _ => none
  else if ctype = ("structured_content") then
    match content with
    | Payload.structured es => format_structured_content es
    | _ => none
  else some (format_simple_text (pyStr content))

/-! ### Assembly pipeline (format_all_extracted_content, generate_document) -/

/-- One extracted fragment: its declared content type and its payload. -/
structure Fragment where
  ctype : String
  content : Payload
deriving DecidableEq

/-- First-match association lookup (Python dict access modelled on an
ordered key-value list). -/
def lookupKey {α : Type} : List (String × α) → String → Option α
  | [], _ => none
  | (k, v) :: rest, key => if k = key then some v else lookupKey rest key

/-- Extraction status of a key in the extraction log. -/
def statusOf (log : List (String × String)) (key : String) : Option String :=
  lookupKey log key

/-- The formatting stage: every placeholder whose extraction-log status is
success and whose dispatch produced an artifact, in order — the
formatted_placeholders list of the formatting summary. -/
def formattedPlaceholders (phs : List (String × Fragment))
    (log : List (String × String)) : List String :=
  phs.foldr (fun kf acc =>
    if statusOf log kf.1 = some ("success") then
      match dispatch_formatter kf.2.ctype kf.2.content with
      | some _ => kf.1 :: acc
      | none => acc
    else acc) []

/-- Hybrid replacement of one placeholder: scalar substitution for
simple_text fragments (a non-string payload would raise and substitute
nothing), structural substitution from the formatted artifact for
structured_content and table fragments, nothing for unknown types or
missing fragments. -/
def replacePlaceholderHybrid (blocks : List Block) (key : String)
    (phs : List (String × Fragment)) (artifacts : String → Option (List Block)) :
    List Block × Bool :=
  match lookupKey phs key with
  | none => (blocks, false)
  | some frag =>
    if frag.ctype = ("simple_text") then
      match frag.content with
      | Payload.str s => replaceSimpleBlocks blocks (tagOf key) s.toList
      | _ => (blocks, false)
    else if frag.ctype = ("structured_content") ∨ frag.ctype = ("table") then
      match artifacts key with
      | none => (blocks, false)
      | some src => replaceStructuredBlocks blocks (tagOf key) src
    else (blocks, false)

/-- The final document-wide pass: line spacing 1.4 on every paragraph,
including paragraphs inside table cells. -/
def setSpacingPara (p : Para) : Para := { p with lineSpacing := some (7/5) }

/-- Line-spacing normalization over the whole document. -/
def applyFinalFormatting (blocks : List Block) : List Block :=
  blocks.map (fun b =>
    match b with
    | Block.para p => Block.para (setSpacingPara p)
    | Block.table t => Block.table ⟨t.rows.map (fun row => row.map (fun c =>
        { c with paras := c.paras.map setSpacingPara }))⟩)

/-- One driver iteration: replace one placeholder and count the success. -/
def hybridStep (phs : List (String × Fragment)) (artifacts : String → Option (List Block))
    (acc : List Block × ℕ) (key : String) : List Block × ℕ :=
  let r := replacePlaceholderHybrid acc.1 key phs artifacts
  (r.1, if r.2 then acc.2 + 1 else acc.2)

/-- The assembly driver for one document: substitute each candidate key in
order, counting successes, then apply the final formatting pass. -/
def generate_document (template : List Block) (keys : List String)
    (phs : List (String × Fragment)) (artifacts : String → Option (List Block)) :
    List Block × ℕ :=
  let folded := keys.foldl (hybridStep phs artifacts) (template, 0)
  (applyFinalFormatting folded.1, folded.2)

/-- The body paragraphs of a document in order (doc.paragraphs). -/
def bodyParas (blocks : List Block) : List Para :=
  blocks.foldr (fun b acc =>
    match b with
    | Block.para p => p :: acc
    | Block.table _ => acc) []

/-- A tag occurs in the text of some body paragraph. -/
def tagPresent (blocks : List Block) (tag : List Char) : Prop :=
  ∃ p ∈ bodyParas blocks, tag <:+: paraText p.runs

instance (blocks : List Block) (tag : List Char) : Decidable (tagPresent blocks tag) := by
  unfold tagPresent
  infer_instance

/-! ### Theorems -/

theorem abs_pyRound_sub (q : ℚ) : |((pyRound q : ℤ) : ℚ) - q| ≤ 1/2 := by
  have h1 : ((⌊q⌋ : ℤ) : ℚ) ≤ q := Int.floor_le q
  have h2 : q < ((⌊q⌋ : ℤ) : ℚ) + 1 := Int.lt_floor_add_one q
  unfold pyRound
  split_ifs with ha hb hc <;> rw [abs_le] <;> constructor <;> push_cast <;> linarith

theorem pyRound_nonpos {q : ℚ} (hq : q ≤ 0) : pyRound q ≤ 0 := by
  have hfl : ⌊q⌋ ≤ 0 := by
    have := Int.floor_le_floor (α := ℚ) hq
    simpa using this
  have h1 : ((⌊q⌋ : ℤ) : ℚ) ≤ q := Int.floor_le q
  unfold pyRound
  split_ifs with ha hb hc
  · exact hfl
  · have : ((⌊q⌋ : ℤ) : ℚ) < 0 := by linarith
    have : ⌊q⌋ < 0 := by exact_mod_cast this
    omega
  · exact hfl
  · have : ((⌊q⌋ : ℤ) : ℚ) ≤ -(1/2) := by linarith
    have : (⌊q⌋ : ℚ) < 0 := by linarith
    have : ⌊q⌋ < 0 := by exact_mod_cast this
    omega

theorem scaled_elem_err {v : ℚ} (hv : 0 < v) :
    |((max 1 (pyRound v) : ℤ) : ℚ) - v| ≤ 1 := by
  have hb := abs_pyRound_sub v
  rcases le_or_lt (pyRound v) 0 with h | h
  · have hmax : max 1 (pyRound v) = 1 := by omega
    rw [hmax]
    have hc : ((pyRound v : ℤ) : ℚ) ≤ 0 := by exact_mod_cast h
    rw [abs_le] at hb ⊢
    push_cast at hb ⊢
    constructor <;> linarith [hb.1, hb.2]
  · have hmax : max 1 (pyRound v) = pyRound v := by omega
    rw [hmax]
    calc |((pyRound v : ℤ) : ℚ) - v| ≤ 1/2 := hb
    _ ≤ 1 := by norm_num

theorem sum_scaled_err (r : ℚ) :
    ∀ w : List ℚ, (∀ x ∈ w, 0 < x * r) →
    |(((w.map (fun x => max 1 (pyRound (x * r)))).sum : ℤ) : ℚ) -
      (w.map (fun x => x * r)).sum| ≤ (w.length : ℚ) := by
  intro w
  induction w with
  | nil => intro _; simp
  | cons a l ih =>
    intro hpos
    have ha : 0 < a * r := hpos a (by simp)
    have hl : ∀ x ∈ l, 0 < x * r := fun x hx => hpos x (by simp [hx])
    have key : (((max 1 (pyRound (a * r)) + (l.map (fun x => max 1 (pyRound (x * r)))).sum : ℤ) : ℚ)) -
        (a * r + (l.map (fun x => x * r)).sum) =
        (((max 1 (pyRound (a * r)) : ℤ) : ℚ) - a * r) +
        ((((l.map (fun x => max 1 (pyRound (x * r)))).sum : ℤ) : ℚ) - (l.map (fun x => x * r)).sum) := by
      push_cast
      ring
    simp only [List.map_cons, List.sum_cons, List.length_cons]
    rw [key]
    calc |_ + _| ≤ |((max 1 (pyRound (a * r)) : ℤ) : ℚ) - a * r| +
        |(((l.map (fun x => max 1 (pyRound (x * r)))).sum : ℤ) : ℚ) - (l.map (fun x => x * r)).sum| :=
          abs_add _ _
    _ ≤ 1 + (l.length : ℚ) := add_le_add (scaled_elem_err ha) (ih hl)
    _ = ((l.length + 1 : ℕ) : ℚ) := by push_cast; ring

theorem sum_map_mul_factor (r : ℚ) : ∀ w : List ℚ, (w.map (fun x => x * r)).sum = w.sum * r := by
  intro w
  induction w with
  | nil => simp
  | cons a l ih => simp [ih, add_mul]

/-- C1.  For every baseline weight vector (non-empty, with positive weights)
and every positive integer target, the scaled vector has every element at
least 1 and its sum is within the length of the vector of the target. -/
theorem scaled_timeline_floor_and_drift (w : List ℚ) (t : ℤ)
    (hw : w ≠ []) (hpos : ∀ x ∈ w, 0 < x) (ht : 0 < t) :
    (∀ y ∈ scaled_timeline w t, 1 ≤ y) ∧
    |(scaled_timeline w t).sum - t| ≤ (w.length : ℤ) := by
  have hsum : 0 < w.sum := List.sum_pos w hpos hw
  set r : ℚ := (t : ℚ) / w.sum with hr
  have hrpos : 0 < r := by
    apply div_pos _ hsum
    exact_mod_cast ht
  constructor
  · intro y hy
    simp only [scaled_timeline, List.mem_map] at hy
    obtain ⟨x, _, rfl⟩ := hy
    exact le_max_left _ _
  · have hx : ∀ x ∈ w, 0 < x * r := fun x hx => mul_pos (hpos x hx) hrpos
    have herr := sum_scaled_err r w hx
    have hmt : (w.map (fun x => x * r)).sum = (t : ℚ) := by
      rw [sum_map_mul_factor, hr]
      field_simp
    rw [hmt] at herr
    have : |((scaled_timeline w t).sum : ℚ) - (t : ℚ)| ≤ (w.length : ℚ) := by
      simpa [scaled_timeline] using herr
    exact_mod_cast this

/-- Witness for C1 at the concrete input w = [1, 2], t = 5. -/
theorem scaled_timeline_floor_and_drift_witness :
    (∀ y ∈ scaled_timeline [(1 : ℚ), 2] 5, 1 ≤ y) ∧
    |(scaled_timeline [(1 : ℚ), 2] 5).sum - 5| ≤ (([(1 : ℚ), 2]).length : ℤ) :=
  scaled_timeline_floor_and_drift [(1 : ℚ), 2] 5 (by decide)
    (by intro x hx; fin_cases hx <;> norm_num) (by decide)

/-- C7.  For a non-positive target the scaled vector is still non-empty, of
the same length, every raw scaled value rounds to at most zero, and every
output element is exactly 1. -/
theorem scaled_timeline_nonpositive_target (w : List ℚ) (t : ℤ)
    (hw : w ≠ []) (hpos : ∀ x ∈ w, 0 < x) (ht : t ≤ 0) :
    (scaled_timeline w t).length = w.length ∧
    scaled_timeline w t ≠ [] ∧
    (∀ x ∈ w, pyRound (x * ((t : ℚ) / w.sum)) ≤ 0) ∧
    (∀ y ∈ scaled_timeline w t, y = 1) := by
  have hsum : 0 < w.sum := List.sum_pos w hpos hw
  have hrle : (t : ℚ) / w.sum ≤ 0 := by
    apply div_nonpos_of_nonpos_of_nonneg
    · exact_mod_cast ht
    · exact le_of_lt hsum
  have hround : ∀ x ∈ w, pyRound (x * ((t : ℚ) / w.sum)) ≤ 0 := by
    intro x hx
    apply pyRound_nonpos
    exact mul_nonpos_of_nonneg_of_nonpos (le_of_lt (hpos x hx)) hrle
  refine ⟨by simp [scaled_timeline], ?_, hround, ?_⟩
  · simp only [scaled_timeline, ne_eq, List.map_eq_nil_iff]
    exact hw
  · intro y hy
    simp only [scaled_timeline, List.mem_map] at hy
    obtain ⟨x, hx, rfl⟩ := hy
    have := hround x hx
    omega

/-- Witness for C7 at the concrete input w = [1, 3], t = -4. -/
theorem scaled_timeline_nonpositive_target_witness :
    (scaled_timeline [(1 : ℚ), 3] (-4)).length = ([(1 : ℚ), 3]).length ∧
    scaled_timeline [(1 : ℚ), 3] (-4) ≠ [] ∧
    (∀ x ∈ [(1 : ℚ), 3], pyRound (x * (((-4 : ℤ) : ℚ) / ([(1 : ℚ), 3]).sum)) ≤ 0) ∧
    (∀ y ∈ scaled_timeline [(1 : ℚ), 3] (-4), y = 1) :=
  scaled_timeline_nonpositive_target [(1 : ℚ), 3] (-4) (by decide)
    (by intro x hx; fin_cases hx <;> norm_num) (by decide)

theorem digitRuns_of_noDigit : ∀ s : List Char, (∀ c ∈ s, c.isDigit = false) →
    digitRuns s = [] := by
  intro s
  induction s with
  | nil => intro _; simp [digitRuns]
  | cons c cs ih =>
    intro h
    rw [digitRuns]
    have hc : c.isDigit = false := h c (by simp)
    simp only [hc, Bool.false_eq_true, if_false]
    exact ih fun x hx => h x (by simp [hx])

theorem takeWhile_append_of_all {p : Char → Bool} :
    ∀ (l₁ l₂ : List Char), (∀ c ∈ l₁, p c = true) →
    (l₁ ++ l₂).takeWhile p = l₁ ++ l₂.takeWhile p := by
  intro l₁ l₂
  induction l₁ with
  | nil => intro _; simp
  | cons a l ih =>
    intro h
    have ha : p a = true := h a (by simp)
    simp only [List.cons_append, List.takeWhile_cons, ha, if_true]
    rw [ih fun x hx => h x (by simp [hx])]

theorem dropWhile_append_of_all {p : Char → Bool} :
    ∀ (l₁ l₂ : List Char), (∀ c ∈ l₁, p c = true) →
    (l₁ ++ l₂).dropWhile p = l₂.dropWhile p := by
  intro l₁ l₂
  induction l₁ with
  | nil => intro _; simp
  | cons a l ih =>
    intro h
    have ha : p a = true := h a (by simp)
    simp only [List.cons_append, List.dropWhile_cons, ha, if_true]
    exact ih fun x hx => h x (by simp [hx])

theorem takeWhile_eq_nil_of_head {p : Char → Bool} (l : List Char)
    (h : ∀ c ∈ l.take 1, p c = false) : l.takeWhile p = [] := by
  cases l with
  | nil => rfl
  | cons a t =>
    have ha : p a = false := h a (by simp)
    simp [List.takeWhile_cons, ha]

theorem dropWhile_eq_self_of_head {p : Char → Bool} (l : List Char)
    (h : ∀ c ∈ l.take 1, p c = false) : l.dropWhile p = l := by
  cases l with
  | nil => rfl
  | cons a t =>
    have ha : p a = false := h a (by simp)
    simp [List.dropWhile_cons, ha]

theorem digitRuns_first_run : ∀ (pre run post : List Char),
    (∀ c ∈ pre, c.isDigit = false) → run ≠ [] → (∀ c ∈ run, c.isDigit = true) →
    (∀ c ∈ post.take 1, c.isDigit = false) →
    digitRuns (pre ++ run ++ post) = run :: digitRuns post := by
  intro pre
  induction pre with
  | cons a l ih =>
    intro run post h hne hdig hpost
    have ha : a.isDigit = false := h a (by simp)
    rw [List.cons_append, List.cons_append, digitRuns]
    simp only [ha, Bool.false_eq_true, if_false]
    exact ih run post (fun x hx => h x (by simp [hx])) hne hdig hpost
  | nil =>
    intro run post h hne hdig hpost
    cases run with
    | nil => exact absurd rfl hne
    | cons d ds =>
      have hd : d.isDigit = true := hdig d (by simp)
      have hds : ∀ c ∈ ds, c.isDigit = true := fun x hx => hdig x (by simp [hx])
      simp only [List.nil_append, List.cons_append, digitRuns, hd, if_true]
      rw [takeWhile_append_of_all ds post hds, takeWhile_eq_nil_of_head post hpost,
        dropWhile_append_of_all ds post hds, dropWhile_eq_self_of_head post hpost]
      simp

/-- C9.  The target-total parser returns the decimal value of the first
maximal digit run of the input, and the fixed default 120 when the input
contains no digit; it is a total function. -/
theorem extract_days_from_time_spec (s : List Char) :
    ((∀ c ∈ s, c.isDigit = false) → extract_days_from_time s = 120) ∧
    (∀ pre run post : List Char, s = pre ++ run ++ post →
      (∀ c ∈ pre, c.isDigit = false) → run ≠ [] → (∀ c ∈ run, c.isDigit = true) →
      (∀ c ∈ post.take 1, c.isDigit = false) →
      extract_days_from_time s = int_of_digits run) := by
  constructor
  · intro h
    unfold extract_days_from_time
    rw [digitRuns_of_noDigit s h]
  · intro pre run post hs hpre hne hdig hpost
    unfold extract_days_from_time
    rw [hs, digitRuns_first_run pre run post hpre hne hdig hpost]

/-- Witness for C9: the first digit run of "abc 45 x 7" is parsed, and an
input with no digits falls back to 120. -/
theorem extract_days_from_time_spec_witness :
    extract_days_from_time (String.toList ("abc 45 x 7")) = int_of_digits (String.toList ("45")) ∧
    extract_days_from_time (String.toList ("no digits here")) = 120 :=
  ⟨(extract_days_from_time_spec (String.toList ("abc 45 x 7"))).2
      (String.toList ("abc ")) (String.toList ("45")) (String.toList (" x 7"))
      (by decide) (by decide) (by decide) (by decide) (by decide),
    (extract_days_from_time_spec (String.toList ("no digits here"))).1 (by decide)⟩

theorem paraText_nil : paraText [] = [] := rfl

theorem paraText_cons (r : Run) (rs : List Run) :
    paraText (r :: rs) = r.text ++ paraText rs := by
  simp [paraText]

theorem charBolds_cons (r : Run) (rs : List Run) :
    charBolds (r :: rs) = List.replicate r.text.length (r.bold.getD false) ++ charBolds rs := by
  simp [charBolds]

theorem splitFirst_eq (tag : List Char) :
    ∀ s b a, splitFirst tag s = some (b, a) → s = b ++ tag ++ a := by
  intro s
  induction s with
  | nil => intro b a h; simp [splitFirst] at h
  | cons c cs ih =>
    intro b a h
    rw [splitFirst] at h
    split_ifs at h with hp
    · obtain ⟨u, hu⟩ := hp
      simp only [Option.some.injEq, Prod.mk.injEq] at h
      obtain ⟨hb, ha⟩ := h
      subst hb
      rw [← ha, ← hu, List.nil_append, List.drop_left]
    · cases hsc : splitFirst tag cs with
      | none => rw [hsc] at h; exact absurd h (by simp)
      | some p =>
        rw [hsc] at h
        cases p with
        | mk b' a' =>
          simp only [Option.some.injEq, Prod.mk.injEq] at h
          obtain ⟨hb, ha⟩ := h
          subst hb; subst ha
          have := ih b' a' hsc
          rw [this]
          simp

theorem splitFirst_first (tag : List Char) :
    ∀ s b a, splitFirst tag s = some (b, a) → ∀ i, i < b.length → ¬ tag <+: s.drop i := by
  intro s
  induction s with
  | nil => intro b a h; simp [splitFirst] at h
  | cons c cs ih =>
    intro b a h
    rw [splitFirst] at h
    split_ifs at h with hp
    · simp only [Option.some.injEq, Prod.mk.injEq] at h
      obtain ⟨hb, _⟩ := h
      subst hb
      intro i hi
      simp at hi
    · cases hsc : splitFirst tag cs with
      | none => rw [hsc] at h; exact absurd h (by simp)
      | some p =>
        rw [hsc] at h
        cases p with
        | mk b' a' =>
          simp only [Option.some.injEq, Prod.mk.injEq] at h
          obtain ⟨hb, ha⟩ := h
          subst hb; subst ha
          intro i hi
          cases i with
          | zero => simpa using hp
          | succ j =>
            simp only [List.length_cons, Nat.succ_lt_succ_iff] at hi
            simpa using ih b' a' hsc j hi

theorem splitFirst_isSome_of_infix (tag : List Char) (hne : tag ≠ []) :
    ∀ s, tag <:+: s → (splitFirst tag s).isSome := by
  intro s
  induction s with
  | nil =>
    intro h
    exact absurd (List.eq_nil_of_infix_nil h) hne
  | cons c cs ih =>
    intro h
    rw [splitFirst]
    split_ifs with hp
    · simp
    · rcases List.infix_cons_iff.mp h with h1 | h2
      · exact absurd h1 hp
      · have := ih h2
        cases hsc : splitFirst tag cs with
        | none => rw [hsc] at this; simp at this
        | some p => cases p; simp

theorem segFlush_texts (seg : List Char) (b : Bool) :
    ((segFlush seg b).map Prod.fst).flatten = seg := by
  unfold segFlush
  split_ifs with h
  · simp [h]
  · simp

theorem segFlush_bolds (seg : List Char) (b : Bool) :
    segBolds (segFlush seg b) = List.replicate seg.length b := by
  unfold segFlush segBolds
  split_ifs with h
  · simp [h]
  · simp

theorem segBolds_append (x y : List (List Char × Bool)) :
    segBolds (x ++ y) = segBolds x ++ segBolds y := by
  simp [segBolds]

theorem segLoop_texts : ∀ (prs : List (Char × Bool)) (seg : List Char) (b : Bool),
    ((segLoop prs seg b).map Prod.fst).flatten = seg ++ prs.map Prod.fst := by
  intro prs
  induction prs with
  | nil => intro seg b; simp [segLoop, segFlush_texts]
  | cons p rest ih =>
    intro seg b
    cases p with
    | mk c cb =>
      rw [segLoop]
      split_ifs with h
      · rw [ih]
        simp
      · rw [List.map_append, List.flatten_append, segFlush_texts, ih]
        simp

theorem segLoop_bolds : ∀ (prs : List (Char × Bool)) (seg : List Char) (b : Bool),
    segBolds (segLoop prs seg b) = List.replicate seg.length b ++ prs.map Prod.snd := by
  intro prs
  induction prs with
  | nil => intro seg b; simp [segLoop, segFlush_bolds]
  | cons p rest ih =>
    intro seg b
    cases p with
    | mk c cb =>
      rw [segLoop]
      split_ifs with h
      · rw [ih]
        subst h
        simp [List.replicate_succ']
      · rw [segBolds_append, segFlush_bolds, ih]
        simp

theorem paraText_cleared (rs : List Run) :
    paraText (rs.map (fun r => { r with text := [] })) = [] := by
  induction rs with
  | nil => rfl
  | cons r rest ih => simpa [paraText_cons] using ih

theorem charBolds_cleared (rs : List Run) :
    charBolds (rs.map (fun r => { r with text := [] })) = [] := by
  induction rs with
  | nil => rfl
  | cons r rest ih => simpa [charBolds_cons] using ih

theorem applySegs_texts : ∀ (segs : List (List Char × Bool)) (rs : List Run),
    paraText (applySegs rs segs) = (segs.map Prod.fst).flatten := by
  intro segs
  induction segs with
  | nil =>
    intro rs
    rw [applySegs]
    simp [paraText_cleared]
  | cons s ss ih =>
    intro rs
    cases rs with
    | nil =>
      rw [applySegs, paraText_cons, ih]
      simp [newRunFrom]
    | cons r rest =>
      rw [applySegs, paraText_cons, ih]
      simp [setRunTo]

theorem applySegs_bolds : ∀ (segs : List (List Char × Bool)) (rs : List Run),
    charBolds (applySegs rs segs) = segBolds segs := by
  intro segs
  induction segs with
  | nil =>
    intro rs
    rw [applySegs]
    simp [charBolds_cleared, segBolds]
  | cons s ss ih =>
    intro rs
    cases rs with
    | nil =>
      rw [applySegs, charBolds_cons, ih]
      simp [newRunFrom, segBolds]
    | cons r rest =>
      rw [applySegs, charBolds_cons, ih]
      simp [setRunTo, segBolds]

theorem pairBolds_fst (bm : List Bool) :
    ∀ (l : List Char) (i : ℕ), (pairBolds bm i l).map Prod.fst = l := by
  intro l
  induction l with
  | nil => intro i; rfl
  | cons c cs ih => intro i; simp [pairBolds, ih]

theorem pairBolds_length (bm : List Bool) :
    ∀ (l : List Char) (i : ℕ), (pairBolds bm i l).length = l.length := by
  intro l
  induction l with
  | nil => intro i; rfl
  | cons c cs ih => intro i; simp [pairBolds, ih]

theorem pairBolds_snd_getD (bm : List Bool) :
    ∀ (l : List Char) (i j : ℕ), j < l.length →
    ((pairBolds bm i l).map Prod.snd).getD j false = boldAt bm (i + j) := by
  intro l
  induction l with
  | nil => intro i j hj; simp at hj
  | cons c cs ih =>
    intro i j hj
    cases j with
    | zero => simp [pairBolds]
    | succ k =>
      simp only [List.length_cons, Nat.succ_lt_succ_iff] at hj
      have := ih (i + 1) k hj
      simp only [pairBolds, List.map_cons, List.getD_cons_succ]
      rw [this]
      congr 1
      omega

theorem getD_append_left' {α : Type} (x y : List α) (d : α) :
    ∀ n, n < x.length → (x ++ y).getD n d = x.getD n d := by
  induction x with
  | nil => intro n hn; simp at hn
  | cons a t ih =>
    intro n hn
    cases n with
    | zero => simp
    | succ k =>
      simp only [List.length_cons, Nat.succ_lt_succ_iff] at hn
      simpa using ih k hn

theorem getD_append_right' {α : Type} (x y : List α) (d : α) :
    ∀ n, x.length ≤ n → (x ++ y).getD n d = y.getD (n - x.length) d := by
  induction x with
  | nil => intro n hn; simp
  | cons a t ih =>
    intro n hn
    cases n with
    | zero => simp at hn
    | succ k =>
      simp only [List.length_cons, Nat.succ_le_succ_iff] at hn
      simpa using ih k hn

theorem getD_replicate' {α : Type} (d a : α) :
    ∀ n j, j < n → (List.replicate n a).getD j d = a := by
  intro n
  induction n with
  | zero => intro j hj; simp at hj
  | succ m ih =>
    intro j hj
    cases j with
    | zero => simp [List.replicate_succ]
    | succ k =>
      simp only [Nat.succ_lt_succ_iff] at hj
      simpa [List.replicate_succ] using ih k hj

theorem replaceSimpleRuns_spec (rs : List Run) (tag content b a : List Char)
    (h : splitFirst tag (paraText rs) = some (b, a)) :
    paraText (replaceSimpleRuns rs tag content) = b ++ content ++ a ∧
    charBolds (replaceSimpleRuns rs tag content) =
      (pairBolds (charBolds rs) 0 b).map Prod.snd ++
      List.replicate content.length (boldAt (charBolds rs) b.length) ++
      (pairBolds (charBolds rs) (b.length + tag.length) a).map Prod.snd := by
  have hrw : replaceSimpleRuns rs tag content =
      applySegs rs (segLoop (pairBolds (charBolds rs) 0 b) [] false ++
        (if content = [] then [] else [(content, boldAt (charBolds rs) b.length)]) ++
        segLoop (pairBolds (charBolds rs) (b.length + tag.length) a) [] false) := by
    unfold replaceSimpleRuns
    rw [h]
  rw [hrw]
  constructor
  · rw [applySegs_texts]
    simp only [List.map_append, List.flatten_append]
    rw [segLoop_texts, segLoop_texts, pairBolds_fst, pairBolds_fst]
    by_cases hc : content = []
    · subst hc; simp
    · simp [hc]
  · rw [applySegs_bolds, segBolds_append, segBolds_append, segLoop_bolds, segLoop_bolds]
    by_cases hc : content = []
    · subst hc; simp [segBolds]
    · simp [hc, segBolds]

/-- C10.  When scalar substitution fires on a paragraph, the resulting
concatenated text is exactly the original text with the first occurrence of
the token replaced by the content: every character before and after the
token is preserved unchanged and in order, and the split is at the first
occurrence. -/
theorem replaceSimpleRuns_text_exact (rs : List Run) (tag content b a : List Char)
    (h : splitFirst tag (paraText rs) = some (b, a)) :
    paraText rs = b ++ tag ++ a ∧
    (∀ i, i < b.length → ¬ tag <+: (paraText rs).drop i) ∧
    paraText (replaceSimpleRuns rs tag content) = b ++ content ++ a :=
  ⟨splitFirst_eq tag _ b a h, splitFirst_first tag _ b a h,
    (replaceSimpleRuns_spec rs tag content b a h).1⟩

/-- Witness for C10 on the paragraph text A-tag-B with content X. -/
theorem replaceSimpleRuns_text_exact_witness :
    paraText [Run.mk ('A' :: tagL ['k'] ++ ['B']) (some false) none none none] =
      ['A'] ++ tagL ['k'] ++ ['B'] ∧
    (∀ i, i < (['A'] : List Char).length →
      ¬ tagL ['k'] <+:
        (paraText [Run.mk ('A' :: tagL ['k'] ++ ['B']) (some false) none none none]).drop i) ∧
    paraText (replaceSimpleRuns [Run.mk ('A' :: tagL ['k'] ++ ['B']) (some false) none none none]
      (tagL ['k']) ['X']) = ['A'] ++ ['X'] ++ ['B'] :=
  replaceSimpleRuns_text_exact
    [Run.mk ('A' :: tagL ['k'] ++ ['B']) (some false) none none none]
    (tagL ['k']) ['X'] ['A'] ['B'] (by decide)

/-- C3 (amended).  Only the first occurrence of the token in a paragraph is
substituted — an occurrence in the part after it survives — and the run
carrying the replacement content inherits the bold state that was in effect
at the token's first character in the original text; italic and font are
not inherited (italic comes from whichever run object happens to be reused,
or is unset on a fresh run, and the font is forced to Times New Roman 14). -/
theorem replaceSimpleRuns_first_only_and_bold_inherited
    (rs : List Run) (tag content b a : List Char)
    (h : splitFirst tag (paraText rs) = some (b, a)) :
    (tag <:+: a → tag <:+: paraText (replaceSimpleRuns rs tag content)) ∧
    (∀ j, j < content.length →
      boldAt (charBolds (replaceSimpleRuns rs tag content)) (b.length + j) =
      boldAt (charBolds rs) b.length) := by
  obtain ⟨htext, hbold⟩ := replaceSimpleRuns_spec rs tag content b a h
  constructor
  · rintro ⟨u, v, huv⟩
    rw [htext]
    exact ⟨b ++ content ++ u, v, by rw [← huv]; simp⟩
  · intro j hj
    rw [hbold]
    unfold boldAt
    have hlenX : ((pairBolds (charBolds rs) 0 b).map Prod.snd).length = b.length := by
      simp [pairBolds_length]
    rw [List.append_assoc, getD_append_right' _ _ _ _ (by rw [hlenX]; omega)]
    rw [hlenX]
    have : b.length + j - b.length = j := by omega
    rw [this, getD_append_left' _ _ _ _ (by simp; omega), getD_replicate' _ _ _ _ hj]

/-- C2 (amended).  The per-character formatting map built by scalar
substitution records only each character's effective bold state, and after
substitution every character outside the token keeps its bold state: the
characters before the token keep theirs position for position, as do the
characters after it; italic and font distinctions of the surrounding runs
are not tracked. -/
theorem replaceSimpleRuns_untouched_bold_preserved
    (rs : List Run) (tag content b a : List Char)
    (h : splitFirst tag (paraText rs) = some (b, a)) :
    (∀ i, i < b.length →
      boldAt (charBolds (replaceSimpleRuns rs tag content)) i =
      boldAt (charBolds rs) i) ∧
    (∀ j, j < a.length →
      boldAt (charBolds (replaceSimpleRuns rs tag content)) (b.length + content.length + j) =
      boldAt (charBolds rs) (b.length + tag.length + j)) := by
  obtain ⟨htext, hbold⟩ := replaceSimpleRuns_spec rs tag content b a h
  have hlenX : ((pairBolds (charBolds rs) 0 b).map Prod.snd).length = b.length := by
    simp [pairBolds_length]
  constructor
  · intro i hi
    rw [hbold]
    unfold boldAt
    rw [List.append_assoc, getD_append_left' _ _ _ _ (by rw [hlenX]; omega)]
    have := pairBolds_snd_getD (charBolds rs) b 0 i hi
    unfold boldAt at this
    simpa using this
  · intro j hj
    rw [hbold]
    unfold boldAt
    rw [List.append_assoc, getD_append_right' _ _ _ _ (by rw [hlenX]; omega)]
    rw [hlenX]
    have h1 : b.length + content.length + j - b.length = content.length + j := by omega
    rw [h1, getD_append_right' _ _ _ _ (by simp)]
    simp only [List.length_replicate]
    have h2 : content.length + j - content.length = j := by omega
    rw [h2]
    have := pairBolds_snd_getD (charBolds rs) a (b.length + tag.length) j hj
    unfold boldAt at this
    rw [this]

/-- Witness for the amended C3 on a paragraph holding the token twice. -/
theorem replaceSimpleRuns_first_only_and_bold_inherited_witness :
    (tagL ['k'] <:+: 'B' :: tagL ['k'] →
      tagL ['k'] <:+: paraText (replaceSimpleRuns
        [Run.mk ('A' :: tagL ['k'] ++ 'B' :: tagL ['k']) (some true) none none none]
        (tagL ['k']) ['X'])) ∧
    (∀ j, j < (['X'] : List Char).length →
      boldAt (charBolds (replaceSimpleRuns
        [Run.mk ('A' :: tagL ['k'] ++ 'B' :: tagL ['k']) (some true) none none none]
        (tagL ['k']) ['X'])) ((['A'] : List Char).length + j) =
      boldAt (charBolds
        [Run.mk ('A' :: tagL ['k'] ++ 'B' :: tagL ['k']) (some true) none none none])
        (['A'] : List Char).length) :=
  replaceSimpleRuns_first_only_and_bold_inherited
    [Run.mk ('A' :: tagL ['k'] ++ 'B' :: tagL ['k']) (some true) none none none]
    (tagL ['k']) ['X'] ['A'] ('B' :: tagL ['k']) (by decide)

/-- Counterexample for C3 as stated: with the paragraph A-tag-B in a single
italic Arial run, the replacement character ends in a fresh run with no
italic and a forced Times New Roman 14 font, so its formatting state is not
the one in effect at the token's first character in the original text. -/
theorem replaceSimpleRuns_inherit_counterexample :
    splitFirst (tagL ['k'])
      (paraText [Run.mk ('A' :: tagL ['k'] ++ ['B']) (some false) (some true) (some ("Arial")) none]) =
      some (['A'], ['B']) ∧
    (charFmts (replaceSimpleRuns
        [Run.mk ('A' :: tagL ['k'] ++ ['B']) (some false) (some true) (some ("Arial")) none]
        (tagL ['k']) ['X'])).getD 1 (CharFmt.mk false none none none) ≠
      (charFmts [Run.mk ('A' :: tagL ['k'] ++ ['B']) (some false) (some true) (some ("Arial")) none]).getD 1
        (CharFmt.mk false none none none) := by decide

/-- Witness for the amended C2 on a token spanning three differently
formatted runs, with the characters A before and B after it. -/
theorem replaceSimpleRuns_untouched_bold_preserved_witness :
    (∀ i, i < (['A'] : List Char).length →
      boldAt (charBolds (replaceSimpleRuns
        [Run.mk ('A' :: [lbrace, lbrace]) (some true) none (some ("Arial")) none,
          Run.mk ['k'] (some false) (some true) none none,
          Run.mk (rbrace :: rbrace :: ['B']) (some false) none none none]
        (tagL ['k']) ['X'])) i =
      boldAt (charBolds
        [Run.mk ('A' :: [lbrace, lbrace]) (some true) none (some ("Arial")) none,
          Run.mk ['k'] (some false) (some true) none none,
          Run.mk (rbrace :: rbrace :: ['B']) (some false) none none none]) i) ∧
    (∀ j, j < (['B'] : List Char).length →
      boldAt (charBolds (replaceSimpleRuns
        [Run.mk ('A' :: [lbrace, lbrace]) (some true) none (some ("Arial")) none,
          Run.mk ['k'] (some false) (some true) none none,
          Run.mk (rbrace :: rbrace :: ['B']) (some false) none none none]
        (tagL ['k']) ['X'])) ((['A'] : List Char).length + (['X'] : List Char).length + j) =
      boldAt (charBolds
        [Run.mk ('A' :: [lbrace, lbrace]) (some true) none (some ("Arial")) none,
          Run.mk ['k'] (some false) (some true) none none,
          Run.mk (rbrace :: rbrace :: ['B']) (some false) none none none])
        ((['A'] : List Char).length + (tagL ['k']).length + j)) :=
  replaceSimpleRuns_untouched_bold_preserved
    [Run.mk ('A' :: [lbrace, lbrace]) (some true) none (some ("Arial")) none,
      Run.mk ['k'] (some false) (some true) none none,
      Run.mk (rbrace :: rbrace :: ['B']) (some false) none none none]
    (tagL ['k']) ['X'] ['A'] ['B'] (by decide)

/-- Counterexample for C2 as stated: the token spans three differently
formatted runs (distinct bold, italic and font combinations); the style of
the untouched character A — bold, non-italic, Arial — appears on no
character at all after substitution, because the rebuild forces every
emitted run to Times New Roman 14 and tracks only bold. -/
theorem replaceSimpleRuns_style_lost_counterexample :
    splitFirst (tagL ['k'])
      (paraText [Run.mk ('A' :: [lbrace, lbrace]) (some true) none (some ("Arial")) none,
        Run.mk ['k'] (some false) (some true) none none,
        Run.mk (rbrace :: rbrace :: ['B']) (some false) none none none]) = some (['A'], ['B']) ∧
    CharFmt.mk true none (some ("Arial")) none ∈
      charFmts [Run.mk ('A' :: [lbrace, lbrace]) (some true) none (some ("Arial")) none,
        Run.mk ['k'] (some false) (some true) none none,
        Run.mk (rbrace :: rbrace :: ['B']) (some false) none none none] ∧
    CharFmt.mk true none (some ("Arial")) none ∉
      charFmts (replaceSimpleRuns
        [Run.mk ('A' :: [lbrace, lbrace]) (some true) none (some ("Arial")) none,
          Run.mk ['k'] (some false) (some true) none none,
          Run.mk (rbrace :: rbrace :: ['B']) (some false) none none none]
        (tagL ['k']) ['X']) := by decide

theorem bodyParas_para_cons (p : Para) (bs : List Block) :
    bodyParas (Block.para p :: bs) = p :: bodyParas bs := rfl

theorem bodyParas_table_cons (t : Table) (bs : List Block) :
    bodyParas (Block.table t :: bs) = bodyParas bs := rfl

theorem replaceStructuredBlocks_decomp :
    ∀ (blocks : List Block) (tag : List Char) (src : List Block) (res : List Block),
    replaceStructuredBlocks blocks tag src = (res, true) →
    ∃ pre p post, blocks = pre ++ Block.para p :: post ∧
      (∀ q ∈ bodyParas pre, ¬ tag <:+: paraText q.runs) ∧
      tag <:+: paraText p.runs ∧
      res = pre ++ src.map normalizeBlock ++ post := by
  intro blocks
  induction blocks with
  | nil => intro tag src res h; simp [replaceStructuredBlocks] at h
  | cons blk bs ih =>
    intro tag src res h
    cases blk with
    | para p =>
      rw [replaceStructuredBlocks] at h
      split_ifs at h with hp
      · simp only [Prod.mk.injEq] at h
        exact ⟨[], p, bs, by simp, by simp [bodyParas], hp, by rw [← h.1]; simp⟩
      · cases hsc : replaceStructuredBlocks bs tag src with
        | mk res' flag =>
          rw [hsc] at h
          simp only [Prod.mk.injEq] at h
          obtain ⟨hres, hflag⟩ := h
          have hrec : replaceStructuredBlocks bs tag src = (res', true) := by
            rw [hsc, hflag]
          obtain ⟨pre, p', post, hb, hnc, hc, hr⟩ := ih tag src res' hrec
          refine ⟨Block.para p :: pre, p', post, by rw [hb]; simp, ?_, hc, by rw [← hres, hr]; simp⟩
          intro q hq
          rw [bodyParas_para_cons] at hq
          rcases List.mem_cons.mp hq with h1 | h2
          · subst h1; exact hp
          · exact hnc q h2
    | table t =>
      rw [replaceStructuredBlocks] at h
      cases hsc : replaceStructuredBlocks bs tag src with
      | mk res' flag =>
        rw [hsc] at h
        simp only [Prod.mk.injEq] at h
        obtain ⟨hres, hflag⟩ := h
        have hrec : replaceStructuredBlocks bs tag src = (res', true) := by
          rw [hsc, hflag]
        obtain ⟨pre, p', post, hb, hnc, hc, hr⟩ := ih tag src res' hrec
        refine ⟨Block.table t :: pre, p', post, by rw [hb]; simp, ?_, hc, by rw [← hres, hr]; simp⟩
        intro q hq
        rw [bodyParas_table_cons] at hq
        exact hnc q hq

/-- C4 (amended).  When structural substitution fires, exactly the first
body paragraph whose text contains the token is removed — every earlier
paragraph does not contain it, and the rest of the document is kept — and
the source blocks are inserted in its place through the normalization pass,
which on paragraph blocks rewrites only the run font family and size
(keeping each run's text, bold and italic and the paragraph's own
properties) and leaves table blocks completely untouched, their runs
included. -/
theorem replaceStructuredBlocks_first_para_and_normalization
    (blocks : List Block) (tag : List Char) (src res : List Block)
    (h : replaceStructuredBlocks blocks tag src = (res, true)) :
    (∃ pre p post, blocks = pre ++ Block.para p :: post ∧
      (∀ q ∈ bodyParas pre, ¬ tag <:+: paraText q.runs) ∧
      tag <:+: paraText p.runs ∧
      res = pre ++ src.map normalizeBlock ++ post) ∧
    (∀ p' : Para, normalizeBlock (Block.para p') =
      Block.para { p' with runs := p'.runs.map normalizeRun }) ∧
    (∀ r : Run, (normalizeRun r).bold = r.bold ∧ (normalizeRun r).italic = r.italic ∧
      (normalizeRun r).text = r.text ∧
      (normalizeRun r).fontName = some ("Times New Roman") ∧
      (normalizeRun r).fontSize = some 14) ∧
    (∀ t : Table, normalizeBlock (Block.table t) = Block.table t) :=
  ⟨replaceStructuredBlocks_decomp blocks tag src res h,
    fun _ => rfl, fun _ => ⟨rfl, rfl, rfl, rfl, rfl⟩, fun _ => rfl⟩

/-- Witness for the amended C4: a one-paragraph document whose only
paragraph is the tag, replaced by a one-table artifact. -/
theorem replaceStructuredBlocks_first_para_and_normalization_witness :
    (∃ pre p post,
      ([Block.para { runs := [Run.mk (tagL ['k']) none none none none] }] : List Block) =
        pre ++ Block.para p :: post ∧
      (∀ q ∈ bodyParas pre, ¬ tagL ['k'] <:+: paraText q.runs) ∧
      tagL ['k'] <:+: paraText p.runs ∧
      ([Block.table ⟨[[Cell.mk none none
          [{ runs := [Run.mk ['A'] none none (some ("Arial")) none] }]]]⟩] : List Block) =
        pre ++ ([Block.table ⟨[[Cell.mk none none
          [{ runs := [Run.mk ['A'] none none (some ("Arial")) none] }]]]⟩] : List Block).map
            normalizeBlock ++ post) ∧
    (∀ p' : Para, normalizeBlock (Block.para p') =
      Block.para { p' with runs := p'.runs.map normalizeRun }) ∧
    (∀ r : Run, (normalizeRun r).bold = r.bold ∧ (normalizeRun r).italic = r.italic ∧
      (normalizeRun r).text = r.text ∧
      (normalizeRun r).fontName = some ("Times New Roman") ∧
      (normalizeRun r).fontSize = some 14) ∧
    (∀ t : Table, normalizeBlock (Block.table t) = Block.table t) :=
  replaceStructuredBlocks_first_para_and_normalization
    [Block.para { runs := [Run.mk (tagL ['k']) none none none none] }]
    (tagL ['k'])
    [Block.table ⟨[[Cell.mk none none
      [{ runs := [Run.mk ['A'] none none (some ("Arial")) none] }]]]⟩]
    [Block.table ⟨[[Cell.mk none none
      [{ runs := [Run.mk ['A'] none none (some ("Arial")) none] }]]]⟩]
    (by decide)

/-- Counterexample for C4 as stated: the substitution fires and inserts a
table block, yet the run inside the inserted table keeps its Arial font —
the normalization pass does not reach runs inside table blocks, so it is
not applied to every run inside the newly inserted blocks. -/
theorem replaceStructuredBlocks_table_run_untouched_counterexample :
    (replaceStructuredBlocks
      [Block.para { runs := [Run.mk (tagL ['k']) none none none none] }]
      (tagL ['k'])
      [Block.table ⟨[[Cell.mk none none
        [{ runs := [Run.mk ['A'] none none (some ("Arial")) none] }]]]⟩]).2 = true ∧
    ¬ (∀ r ∈ (((replaceStructuredBlocks
        [Block.para { runs := [Run.mk (tagL ['k']) none none none none] }]
        (tagL ['k'])
        [Block.table ⟨[[Cell.mk none none
          [{ runs := [Run.mk ['A'] none none (some ("Arial")) none] }]]]⟩]).1.map
            blockRuns).flatten),
      r.fontName = some ("Times New Roman")) := by decide

/-- C6.  The dispatcher never rejects an unrecognized type tag: it falls
back to the simple-text formatter applied to the payload's string
conversion, and the produced artifact is a single plain paragraph whose
text is exactly that string conversion. -/
theorem dispatch_formatter_unknown_tag (ctype : String) (content : Payload)
    (h1 : ctype ≠ ("simple_text")) (h2 : ctype ≠ ("table"))
    (h3 : ctype ≠ ("structured_content")) :
    dispatch_formatter ctype content = some (format_simple_text (pyStr content)) ∧
    (∃ p : Para, format_simple_text (pyStr content) = [Block.para p] ∧
      paraText p.runs = (pyStr content).toList) := by
  constructor
  · unfold dispatch_formatter
    rw [if_neg h1, if_neg h2, if_neg h3]
  · unfold format_simple_text
    refine ⟨_, rfl, ?_⟩
    simp only [String.toList]
    by_cases hc : (pyStr content).data = []
    · simp [hc, paraText]
    · simp [hc, paraText]

/-- Witness for C6 at the unknown tag weird over a string payload. -/
theorem dispatch_formatter_unknown_tag_witness :
    (dispatch_formatter ("weird") (Payload.str ("x")) =
      some (format_simple_text (pyStr (Payload.str ("x"))))) ∧
    (∃ p : Para, format_simple_text (pyStr (Payload.str ("x"))) = [Block.para p] ∧
      paraText p.runs = (pyStr (Payload.str ("x"))).toList) :=
  dispatch_formatter_unknown_tag ("weird") (Payload.str ("x"))
    (by decide) (by decide) (by decide)

theorem pyMax_eq_max (a b : ℚ) : pyMax a b = max a b := by
  unfold pyMax
  split_ifs with h
  · rw [max_eq_right h]
  · rw [max_eq_left (le_of_not_le h)]

theorem pyMin_eq_min (a b : ℚ) : pyMin a b = min a b := by
  unfold pyMin
  split_ifs with h
  · rw [min_eq_left h]
  · rw [min_eq_right (le_of_not_le h)]

theorem pyMaxN_eq_max (a b : ℕ) : pyMaxN a b = max a b := by
  unfold pyMaxN
  split_ifs with h
  · exact (max_eq_right h).symm
  · exact (max_eq_left (le_of_not_le h)).symm

theorem pyMaxN_zero (a : ℕ) : pyMaxN a 0 = a := by
  unfold pyMaxN
  split_ifs with h <;> omega

theorem rowUpdate_get? : ∀ (acc : List ℕ) (row : List String) (i : ℕ),
    (rowUpdate acc row).get? i =
      (acc.get? i).map (fun a => pyMaxN a ((row.getD i ("")).length)) := by
  intro acc
  induction acc with
  | nil => intro row i; cases row <;> simp [rowUpdate]
  | cons a rest ih =>
    intro row i
    cases row with
    | nil =>
      simp only [rowUpdate, List.getD_nil]
      cases h : (a :: rest).get? i <;> simp [pyMaxN_zero]
    | cons s ss =>
      cases i with
      | zero => simp [rowUpdate]
      | succ j => simpa [rowUpdate] using ih ss j

theorem rowUpdate_length : ∀ (acc : List ℕ) (row : List String),
    (rowUpdate acc row).length = acc.length := by
  intro acc
  induction acc with
  | nil => intro row; cases row <;> simp [rowUpdate]
  | cons a rest ih =>
    intro row
    cases row with
    | nil => simp [rowUpdate]
    | cons s ss => simp [rowUpdate, ih]

theorem foldl_rowUpdate_get? : ∀ (rows : List (List String)) (acc : List ℕ) (i : ℕ) (a : ℕ),
    acc.get? i = some a →
    (rows.foldl rowUpdate acc).get? i =
      some (max a ((rows.map (fun row => (row.getD i ("")).length)).foldr max 0)) := by
  intro rows
  induction rows with
  | nil => intro acc i a h; simpa using h
  | cons row rest ih =>
    intro acc i a h
    have hstep : (rowUpdate acc row).get? i =
        some (pyMaxN a ((row.getD i ("")).length)) := by
      rw [rowUpdate_get?, h]
      rfl
    have := ih (rowUpdate acc row) i _ hstep
    rw [List.foldl_cons, this, pyMaxN_eq_max]
    rw [List.map_cons, List.foldr_cons, max_assoc]

theorem foldl_rowUpdate_length : ∀ (rows : List (List String)) (acc : List ℕ),
    (rows.foldl rowUpdate acc).length = acc.length := by
  intro rows
  induction rows with
  | nil => intro acc; rfl
  | cons row rest ih =>
    intro acc
    rw [List.foldl_cons, ih, rowUpdate_length]

theorem maxLengths_length (headers : List String) (rows : List (List String)) :
    (maxLengths headers rows).length = headers.length := by
  unfold maxLengths
  rw [foldl_rowUpdate_length, rowUpdate_length, List.length_replicate]

theorem maxLengths_get?_spec (headers : List String) (rows : List (List String))
    (i : ℕ) (hi : i < headers.length) :
    (maxLengths headers rows).get? i = some (specColumnMaxWidth headers rows i) := by
  unfold maxLengths
  have hbase : (rowUpdate (List.replicate headers.length 0) headers).get? i =
      some ((headers.getD i ("")).length) := by
    rw [rowUpdate_get?]
    have : (List.replicate headers.length (0 : ℕ)).get? i = some 0 := by
      rw [List.get?_eq_getElem?]
      simp [List.getElem?_replicate, hi]
    rw [this, Option.map_some', pyMaxN_eq_max]
    simp
  rw [foldl_rowUpdate_get? rows _ i _ hbase]
  rfl

/-- C8 (amended).  For every non-empty table payload the formatter
produces an artifact; each column's width is the clamp to the band
[3/5, 2] of the proportional share of the 7-inch budget given by the
column's maximum observed textual width over header and rows; every width
lies in the band.  No remainder-distribution pass follows, so the widths
need not sum to the budget. -/
theorem format_table_widths_spec (headers : List String) (rows : List (List String))
    (h1 : headers ≠ []) (h2 : rows ≠ []) :
    (format_table headers rows).isSome ∧
    (columnWidths headers rows).length = headers.length ∧
    (∀ w ∈ columnWidths headers rows, 3/5 ≤ w ∧ w ≤ 2) ∧
    (∀ i, i < headers.length →
      (columnWidths headers rows).get? i = some (pyMax (3/5) (pyMin
        ((specColumnMaxWidth headers rows i : ℚ) /
          (((if 0 < (maxLengths headers rows).sum then (maxLengths headers rows).sum
             else headers.length) : ℕ) : ℚ) * 7) 2))) := by
  have hT : 0 < (if 0 < (maxLengths headers rows).sum then (maxLengths headers rows).sum
      else headers.length) := by
    split_ifs with hs
    · exact hs
    · exact List.length_pos.mpr h1
  refine ⟨?_, ?_, ?_, ?_⟩
  · unfold format_table
    rw [if_neg (by simp [h1, h2])]
    simp
  · unfold columnWidths
    rw [List.length_map, maxLengths_length]
  · intro w hw
    unfold columnWidths at hw
    rw [List.mem_map] at hw
    obtain ⟨len, _, rfl⟩ := hw
    rw [pyMax_eq_max, pyMin_eq_min]
    constructor
    · exact le_max_left _ _
    · apply max_le (by norm_num) (min_le_right _ _)
  · intro i hi
    unfold columnWidths
    rw [List.get?_map, maxLengths_get?_spec headers rows i hi, Option.map_some']
    rw [if_pos hT]

/-- Witness for the amended C8 at a concrete two-column table. -/
theorem format_table_widths_spec_witness :
    (format_table [("ab"), ("cd")] [[("x"), ("y")]]).isSome ∧
    (columnWidths [("ab"), ("cd")] [[("x"), ("y")]]).length = ([("ab"), ("cd")]).length ∧
    (∀ w ∈ columnWidths [("ab"), ("cd")] [[("x"), ("y")]], 3/5 ≤ w ∧ w ≤ 2) ∧
    (∀ i, i < ([("ab"), ("cd")]).length →
      (columnWidths [("ab"), ("cd")] [[("x"), ("y")]]).get? i = some (pyMax (3/5) (pyMin
        ((specColumnMaxWidth [("ab"), ("cd")] [[("x"), ("y")]] i : ℚ) /
          (((if 0 < (maxLengths [("ab"), ("cd")] [[("x"), ("y")]]).sum
             then (maxLengths [("ab"), ("cd")] [[("x"), ("y")]]).sum
             else ([("ab"), ("cd")]).length) : ℕ) : ℚ) * 7) 2))) :=
  format_table_widths_spec [("ab"), ("cd")] [[("x"), ("y")]] (by decide) (by decide)

/-- Counterexample for C8 as stated: with headers ab, cd and one data row
x, y both columns clamp to two inches, and the widths sum to four inches,
not the seven-inch page budget — no remainder distribution happens. -/
theorem format_table_width_sum_counterexample :
    columnWidths [("ab"), ("cd")] [[("x"), ("y")]] = [2, 2] ∧
    (columnWidths [("ab"), ("cd")] [[("x"), ("y")]]).sum ≠ 7 := by
  have h1 : maxLengths [("ab"), ("cd")] [[("x"), ("y")]] = [2, 2] := by decide
  have h2 : columnWidths [("ab"), ("cd")] [[("x"), ("y")]] = [2, 2] := by
    simp only [columnWidths, h1]
    norm_num [pyMax, pyMin]
  rw [h2]
  norm_num

theorem lbrace_ne_rbrace : lbrace ≠ rbrace := by decide

theorem tagL_length (k : List Char) : (tagL k).length = k.length + 4 := by
  simp [tagL]

theorem tagL_ne_nil (k : List Char) : tagL k ≠ [] := by
  simp [tagL]

theorem tagL_get?_zero (k : List Char) : (tagL k).get? 0 = some lbrace := rfl

theorem tagL_get?_one (k : List Char) : (tagL k).get? 1 = some lbrace := rfl

theorem tagL_get?_shift (k : List Char) (j : ℕ) :
    (tagL k).get? (2 + j) = (k ++ [rbrace, rbrace]).get? j := by
  rw [Nat.add_comm]
  rfl

theorem tagL_get?_no_lbrace (k : List Char) (hk : braceFree k) (j : ℕ) (c : Char)
    (h : (tagL k).get? (2 + j) = some c) : c ≠ lbrace := by
  rw [tagL_get?_shift] at h
  rcases Nat.lt_or_ge j k.length with hj | hj
  · rw [List.get?_append hj] at h
    exact (hk c (List.get?_mem h)).1
  · rw [List.get?_append_right hj] at h
    have hc : c = rbrace := by
      rcases Nat.lt_or_ge (j - k.length) 2 with h2 | h2
      · interval_cases h3 : (j - k.length) <;> simp_all
      · rw [List.get?_eq_none.mpr (by simpa using h2)] at h
        exact absurd h (by simp)
    rw [hc]
    exact fun hcon => lbrace_ne_rbrace hcon.symm

theorem tagL_get?_rbrace_pos (k : List Char) (hk : braceFree k) (j : ℕ)
    (h : (tagL k).get? j = some rbrace) : k.length + 2 ≤ j := by
  match j with
  | 0 =>
    rw [tagL_get?_zero] at h
    exact absurd (Option.some.inj h) lbrace_ne_rbrace
  | 1 =>
    rw [tagL_get?_one] at h
    exact absurd (Option.some.inj h) lbrace_ne_rbrace
  | (n + 2) =>
    have h' : (k ++ [rbrace, rbrace]).get? n = some rbrace := by
      rw [← tagL_get?_shift, Nat.add_comm 2 n]
      exact h
    rcases Nat.lt_or_ge n k.length with hn | hn
    · rw [List.get?_append hn] at h'
      exact absurd ((hk rbrace (List.get?_mem h')).2) (by simp)
    · omega

theorem prefix_get?_eq {t l : List Char} (h : t <+: l) :
    ∀ j, j < t.length → l.get? j = t.get? j := by
  obtain ⟨u, rfl⟩ := h
  intro j hj
  exact List.get?_append hj

theorem tagL_start_inj {k1 k2 : List Char} (h1 : braceFree k1) (h2 : braceFree k2)
    {rest : List Char} (hp : tagL k1 <+: tagL k2 ++ rest) : k1 = k2 := by
  have hget : ∀ j, j < k1.length + 4 → (tagL k2 ++ rest).get? j = (tagL k1).get? j := by
    intro j hj
    exact prefix_get?_eq hp j (by rw [tagL_length]; omega)
  rcases Nat.lt_trichotomy k1.length k2.length with hlt | heq | hgt
  · exfalso
    have hr : (tagL k1).get? (2 + k1.length) = some rbrace := by
      rw [tagL_get?_shift, List.get?_append_right (le_refl _)]
      simp
    have hin : (2 + k1.length) < (tagL k2).length := by rw [tagL_length]; omega
    have := hget (2 + k1.length) (by omega)
    rw [List.get?_append hin, hr] at this
    have := tagL_get?_rbrace_pos k2 h2 _ this
    omega
  · have hkk : ∀ m, k1.get? m = k2.get? m := by
      intro m
      rcases Nat.lt_or_ge m k1.length with hm | hm
      · have hin : (2 + m) < (tagL k2).length := by rw [tagL_length]; omega
        have := hget (2 + m) (by omega)
        rw [List.get?_append hin, tagL_get?_shift, tagL_get?_shift,
          List.get?_append (by omega), List.get?_append (by omega)] at this
        exact this.symm
      · rw [List.get?_eq_none.mpr hm, List.get?_eq_none.mpr (by omega)]
    exact List.ext_get? hkk
  · exfalso
    have hr : (tagL k2).get? (2 + k2.length) = some rbrace := by
      rw [tagL_get?_shift, List.get?_append_right (le_refl _)]
      simp
    have hin : (2 + k2.length) < (tagL k2).length := by rw [tagL_length]; omega
    have := hget (2 + k2.length) (by omega)
    rw [List.get?_append hin, hr] at this
    have hc : (tagL k1).get? (2 + k2.length) = some rbrace := this.symm
    have := tagL_get?_rbrace_pos k1 h1 _ hc
    omega

theorem tag_occurrence_split {k1 k2 : List Char} (h1 : braceFree k1) (h2 : braceFree k2)
    (hne : k1 ≠ k2) (s b a : List Char) (hs : s = b ++ tagL k2 ++ a) (i : ℕ)
    (hocc : tagL k1 <+: s.drop i) :
    i + (tagL k1).length ≤ b.length ∨ b.length + (tagL k2).length ≤ i := by
  by_contra hcon
  push_neg at hcon
  obtain ⟨hA, hB⟩ := hcon
  have hget : ∀ j, j < (tagL k1).length → s.get? (i + j) = (tagL k1).get? j := by
    intro j hj
    rw [← List.get?_drop]
    exact prefix_get?_eq hocc j hj
  have hslb0 : s.get? b.length = some lbrace := by
    rw [hs, List.append_assoc, List.get?_append_right (le_refl _), Nat.sub_self]
    rfl
  have hslb1 : s.get? (b.length + 1) = some lbrace := by
    rw [hs, List.append_assoc, List.get?_append_right (by omega)]
    have hone : b.length + 1 - b.length = 1 := by omega
    rw [hone]
    rfl
  have ht1len : (tagL k1).length = k1.length + 4 := tagL_length k1
  have ht2len : (tagL k2).length = k2.length + 4 := tagL_length k2
  rcases Nat.lt_trichotomy i b.length with hlt | heq | hgt
  · -- the second tag starts strictly inside the first occurrence
    have hd : b.length - i < (tagL k1).length := by omega
    have hd1 : 1 ≤ b.length - i := by omega
    have hx := hget (b.length - i) hd
    rw [show i + (b.length - i) = b.length by omega, hslb0] at hx
    rcases Nat.lt_or_ge (b.length - i) 2 with hsm | hla
    · have hdeq : b.length - i = 1 := by omega
      have hy := hget 2 (by omega)
      rw [show i + 2 = b.length + 1 by omega, hslb1] at hy
      exact tagL_get?_no_lbrace k1 h1 0 lbrace (by rw [show (2:ℕ) + 0 = 2 by omega]; exact hy.symm) rfl
    · exact tagL_get?_no_lbrace k1 h1 (b.length - i - 2) lbrace
        (by rw [show 2 + (b.length - i - 2) = b.length - i by omega]; exact hx.symm) rfl
  · subst heq
    have : s.drop b.length = tagL k2 ++ a := by
      rw [hs, List.append_assoc, List.drop_left]
    rw [this] at hocc
    exact hne (tagL_start_inj h1 h2 hocc)
  · -- the first occurrence starts strictly inside the second tag
    have he : i - b.length < (tagL k2).length := by omega
    have he1 : 1 ≤ i - b.length := by omega
    have hx := hget 0 (by omega)
    rw [Nat.add_zero, tagL_get?_zero] at hx
    have hsi : (tagL k2).get? (i - b.length) = some lbrace := by
      have : s.get? i = (tagL k2).get? (i - b.length) := by
        rw [hs, List.append_assoc, List.get?_append_right (by omega), List.get?_append (by omega)]
      rw [← this, hx]
    rcases Nat.lt_or_ge (i - b.length) 2 with hsm | hla
    · have heeq : i - b.length = 1 := by omega
      have hy := hget 1 (by omega)
      rw [tagL_get?_one] at hy
      have hsi2 : (tagL k2).get? 2 = some lbrace := by
        have : s.get? (i + 1) = (tagL k2).get? 2 := by
          rw [hs, List.append_assoc, List.get?_append_right (by omega),
            List.get?_append (by omega)]
          congr 1
          omega
        rw [← this, hy]
      exact tagL_get?_no_lbrace k2 h2 0 lbrace
        (by rw [show (2:ℕ) + 0 = 2 by omega]; exact hsi2) rfl
    · exact tagL_get?_no_lbrace k2 h2 (i - b.length - 2) lbrace
        (by rw [show 2 + (i - b.length - 2) = i - b.length by omega]; exact hsi) rfl

theorem infix_split_of_braceFree {k1 k2 : List Char} (h1 : braceFree k1)
    (h2 : braceFree k2) (hne : k1 ≠ k2) (b a : List Char)
    (hocc : tagL k1 <:+: b ++ tagL k2 ++ a) : tagL k1 <:+: b ∨ tagL k1 <:+: a := by
  obtain ⟨u, v, huv⟩ := hocc
  have huv' : u ++ (tagL k1 ++ v) = b ++ (tagL k2 ++ a) := by
    simpa [List.append_assoc] using huv
  have hpre : tagL k1 <+: (b ++ tagL k2 ++ a).drop u.length := by
    rw [← huv, List.append_assoc, List.drop_left]
    exact ⟨v, rfl⟩
  rcases tag_occurrence_split h1 h2 hne _ b a rfl u.length hpre with hL | hR
  · left
    have e1 : (u ++ (tagL k1 ++ v)).take b.length =
        u ++ (tagL k1 ++ v).take (b.length - u.length) := by
      rw [List.take_append_eq_append_take,
        List.take_of_length_le (show u.length ≤ b.length by omega)]
    have e2 : (tagL k1 ++ v).take (b.length - u.length) =
        tagL k1 ++ v.take (b.length - u.length - (tagL k1).length) := by
      rw [List.take_append_eq_append_take,
        List.take_of_length_le (show (tagL k1).length ≤ b.length - u.length by omega)]
    have hb : u ++ (tagL k1 ++ v.take (b.length - u.length - (tagL k1).length)) = b := by
      calc u ++ (tagL k1 ++ v.take (b.length - u.length - (tagL k1).length))
          = (u ++ (tagL k1 ++ v)).take b.length := by rw [e1, e2]
        _ = (b ++ (tagL k2 ++ a)).take b.length := by rw [huv']
        _ = b := List.take_left b _
    refine ⟨u, v.take (b.length - u.length - (tagL k1).length), ?_⟩
    rw [← List.append_assoc] at hb
    exact hb
  · right
    have ha2 : u.drop (b ++ tagL k2).length ++ (tagL k1 ++ v) = a := by
      have hz : (b ++ tagL k2).length - u.length = 0 := by
        rw [List.length_append]
        omega
      calc u.drop (b ++ tagL k2).length ++ (tagL k1 ++ v)
          = u.drop (b ++ tagL k2).length ++ (tagL k1 ++ v).drop ((b ++ tagL k2).length - u.length) := by
            rw [hz, List.drop_zero]
        _ = (u ++ (tagL k1 ++ v)).drop (b ++ tagL k2).length :=
            (List.drop_append_eq_append_drop).symm
        _ = ((b ++ tagL k2) ++ a).drop (b ++ tagL k2).length := by
            rw [huv', List.append_assoc]
        _ = a := List.drop_left _ _
    refine ⟨u.drop (b ++ tagL k2).length, v, ?_⟩
    rw [← List.append_assoc] at ha2
    exact ha2

theorem infix_append_ext_left {l b : List Char} (z : List Char) (h : l <:+: b) :
    l <:+: b ++ z := by
  obtain ⟨u, v, huv⟩ := h
  exact ⟨u, v ++ z, by rw [← huv]; simp⟩

theorem infix_append_ext_right {l a : List Char} (z : List Char) (h : l <:+: a) :
    l <:+: z ++ a := by
  obtain ⟨u, v, huv⟩ := h
  exact ⟨z ++ u, v, by rw [← huv]; simp⟩

theorem replaceSimpleRuns_other_tag_survives (rs : List Run) (tag2 content tag1 : List Char)
    (htag2 : tag2 <:+: paraText rs) (hne2 : tag2 ≠ [])
    (hsplit : ∀ b a, tag1 <:+: b ++ tag2 ++ a → tag1 <:+: b ∨ tag1 <:+: a)
    (h1 : tag1 <:+: paraText rs) :
    tag1 <:+: paraText (replaceSimpleRuns rs tag2 content) := by
  have hs := splitFirst_isSome_of_infix tag2 hne2 _ htag2
  cases hsp : splitFirst tag2 (paraText rs) with
  | none => rw [hsp] at hs; simp at hs
  | some p =>
    cases p with
    | mk b a =>
      have htext := (replaceSimpleRuns_spec rs tag2 content b a hsp).1
      have heq := splitFirst_eq tag2 _ b a hsp
      rw [heq] at h1
      rcases hsplit b a h1 with hb | ha
      · rw [htext, List.append_assoc]
        exact infix_append_ext_left _ hb
      · rw [htext]
        exact infix_append_ext_right (b ++ content) ha

theorem replaceSimpleBlocks_preserves : ∀ (blocks : List Block) (tag2 content tag1 : List Char),
    tag2 ≠ [] →
    (∀ b a, tag1 <:+: b ++ tag2 ++ a → tag1 <:+: b ∨ tag1 <:+: a) →
    tagPresent blocks tag1 →
    tagPresent (replaceSimpleBlocks blocks tag2 content).1 tag1 := by
  intro blocks
  induction blocks with
  | nil =>
    intro tag2 content tag1 _ _ h
    simpa [tagPresent, bodyParas] using h
  | cons blk bs ih =>
    intro tag2 content tag1 hne2 hsplit hpres
    cases blk with
    | para p =>
      rw [replaceSimpleBlocks]
      split_ifs with hp
      · obtain ⟨q, hq, hqinf⟩ := hpres
        rw [bodyParas_para_cons] at hq
        rcases List.mem_cons.mp hq with rfl | hq2
        · exact ⟨_, by rw [bodyParas_para_cons]; exact List.mem_cons_self _ _,
            replaceSimpleRuns_other_tag_survives q.runs tag2 content tag1 hp hne2 hsplit hqinf⟩
        · exact ⟨q, by rw [bodyParas_para_cons]; exact List.mem_cons_of_mem _ hq2, hqinf⟩
      · obtain ⟨q, hq, hqinf⟩ := hpres
        rw [bodyParas_para_cons] at hq
        rcases List.mem_cons.mp hq with rfl | hq2
        · exact ⟨q, by rw [bodyParas_para_cons]; exact List.mem_cons_self _ _, hqinf⟩
        · obtain ⟨q', hq', hqi'⟩ := ih tag2 content tag1 hne2 hsplit ⟨q, hq2, hqinf⟩
          exact ⟨q', by rw [bodyParas_para_cons]; exact List.mem_cons_of_mem _ hq', hqi'⟩
    | table t =>
      rw [replaceSimpleBlocks]
      obtain ⟨q, hq, hqinf⟩ := hpres
      rw [bodyParas_table_cons] at hq
      obtain ⟨q', hq', hqi'⟩ := ih tag2 content tag1 hne2 hsplit ⟨q, hq, hqinf⟩
      exact ⟨q', by rw [bodyParas_table_cons]; exact hq', hqi'⟩

theorem applyFinalFormatting_tagPresent : ∀ (blocks : List Block) (tag : List Char),
    tagPresent blocks tag → tagPresent (applyFinalFormatting blocks) tag := by
  intro blocks
  induction blocks with
  | nil => intro tag h; simpa [tagPresent, bodyParas] using h
  | cons blk bs ih =>
    intro tag h
    obtain ⟨q, hq, hqi⟩ := h
    cases blk with
    | para p =>
      have hafp : applyFinalFormatting (Block.para p :: bs) =
          Block.para (setSpacingPara p) :: applyFinalFormatting bs := rfl
      rw [hafp]
      rw [bodyParas_para_cons] at hq
      rcases List.mem_cons.mp hq with rfl | hq2
      · refine ⟨setSpacingPara q, by rw [bodyParas_para_cons]; exact List.mem_cons_self _ _, ?_⟩
        simpa [setSpacingPara] using hqi
      · obtain ⟨q', hq', hqi'⟩ := ih tag ⟨q, hq2, hqi⟩
        exact ⟨q', by rw [bodyParas_para_cons]; exact List.mem_cons_of_mem _ hq', hqi'⟩
    | table t =>
      have hafp : ∃ t2, applyFinalFormatting (Block.table t :: bs) =
          Block.table t2 :: applyFinalFormatting bs := ⟨_, rfl⟩
      obtain ⟨t2, ht2⟩ := hafp
      rw [ht2]
      rw [bodyParas_table_cons] at hq
      obtain ⟨q', hq', hqi'⟩ := ih tag ⟨q, hq, hqi⟩
      exact ⟨q', by rw [bodyParas_table_cons]; exact hq', hqi'⟩

theorem lookupKey_mem {α : Type} : ∀ (l : List (String × α)) (k : String) (v : α),
    lookupKey l k = some v → (k, v) ∈ l := by
  intro l
  induction l with
  | nil => intro k v h; simp [lookupKey] at h
  | cons p rest ih =>
    intro k v h
    cases p with
    | mk k0 v0 =>
      rw [lookupKey] at h
      split_ifs at h with he
      · have hv := Option.some.inj h
        exact List.mem_cons.mpr (Or.inl (by rw [← he, ← hv]))
      · exact List.mem_cons_of_mem _ (ih k v h)

theorem mem_formattedPlaceholders : ∀ (phs : List (String × Fragment))
    (log : List (String × String)) (k : String),
    k ∈ formattedPlaceholders phs log →
    ∃ f, (k, f) ∈ phs ∧ statusOf log k = some ("success") := by
  intro phs
  induction phs with
  | nil => intro log k h; simp [formattedPlaceholders] at h
  | cons kf rest ih =>
    intro log k h
    obtain ⟨k0, f0⟩ := kf
    have hstep : formattedPlaceholders ((k0, f0) :: rest) log =
        if statusOf log k0 = some ("success") then
          match dispatch_formatter f0.ctype f0.content with
          | some _ => k0 :: formattedPlaceholders rest log
          | none => formattedPlaceholders rest log
        else formattedPlaceholders rest log := rfl
    rw [hstep] at h
    split_ifs at h with hst
    · cases hd : dispatch_formatter f0.ctype f0.content with
      | some art =>
        rw [hd] at h
        rcases List.mem_cons.mp h with rfl | h2
        · exact ⟨f0, List.mem_cons_self _ _, hst⟩
        · obtain ⟨f, hf, hs⟩ := ih log k h2
          exact ⟨f, List.mem_cons_of_mem _ hf, hs⟩
      | none =>
        rw [hd] at h
        obtain ⟨f, hf, hs⟩ := ih log k h
        exact ⟨f, List.mem_cons_of_mem _ hf, hs⟩
    · obtain ⟨f, hf, hs⟩ := ih log k h
      exact ⟨f, List.mem_cons_of_mem _ hf, hs⟩

theorem replacePlaceholderHybrid_preserves (blocks : List Block) (key k : String)
    (phs : List (String × Fragment)) (artifacts : String → Option (List Block))
    (hk : braceFree k.toList) (hne : key ≠ k)
    (hfrags : ∀ p ∈ phs, braceFree p.1.toList ∧ p.2.ctype = ("simple_text") ∧
      ∃ s, p.2.content = Payload.str s)
    (hpres : tagPresent blocks (tagOf k)) :
    tagPresent (replacePlaceholderHybrid blocks key phs artifacts).1 (tagOf k) := by
  cases hlk : lookupKey phs key with
  | none =>
    have heq : replacePlaceholderHybrid blocks key phs artifacts = (blocks, false) := by
      unfold replacePlaceholderHybrid
      rw [hlk]
    rw [heq]
    exact hpres
  | some frag =>
    obtain ⟨hbf, hct, s, hcontent⟩ := hfrags (key, frag) (lookupKey_mem phs key frag hlk)
    have heq : replacePlaceholderHybrid blocks key phs artifacts =
        replaceSimpleBlocks blocks (tagOf key) s.toList := by
      have hct2 : frag.ctype = ("simple_text") := hct
      have hcontent2 : frag.content = Payload.str s := hcontent
      unfold replacePlaceholderHybrid
      rw [hlk]
      dsimp only
      rw [if_pos hct2, hcontent2]
    rw [heq]
    apply replaceSimpleBlocks_preserves blocks (tagOf key) s.toList (tagOf k)
      (tagL_ne_nil _) ?_ hpres
    intro b a hin
    apply infix_split_of_braceFree hk hbf ?_ b a hin
    intro hEq
    apply hne
    exact String.ext hEq.symm

theorem foldl_hybridStep_preserves (phs : List (String × Fragment))
    (artifacts : String → Option (List Block)) (k : String)
    (hk : braceFree k.toList)
    (hfrags : ∀ p ∈ phs, braceFree p.1.toList ∧ p.2.ctype = ("simple_text") ∧
      ∃ s, p.2.content = Payload.str s) :
    ∀ (keys : List String) (acc : List Block × ℕ),
    (∀ key ∈ keys, key ≠ k) →
    tagPresent acc.1 (tagOf k) →
    tagPresent (keys.foldl (hybridStep phs artifacts) acc).1 (tagOf k) := by
  intro keys
  induction keys with
  | nil => intro acc _ h; simpa using h
  | cons key rest ih =>
    intro acc hkeys hpres
    rw [List.foldl_cons]
    apply ih _ (fun k2 h2 => hkeys k2 (List.mem_cons_of_mem _ h2))
    show tagPresent (hybridStep phs artifacts acc key).1 (tagOf k)
    unfold hybridStep
    exact replacePlaceholderHybrid_preserves acc.1 key k phs artifacts hk
      (hkeys key (List.mem_cons_self _ _)) hfrags hpres

theorem generate_document_preserves (template : List Block) (keys : List String)
    (phs : List (String × Fragment)) (artifacts : String → Option (List Block)) (k : String)
    (hk : braceFree k.toList)
    (hkeys : ∀ key ∈ keys, key ≠ k)
    (hfrags : ∀ p ∈ phs, braceFree p.1.toList ∧ p.2.ctype = ("simple_text") ∧
      ∃ s, p.2.content = Payload.str s)
    (hpres : tagPresent template (tagOf k)) :
    tagPresent (generate_document template keys phs artifacts).1 (tagOf k) := by
  unfold generate_document
  exact applyFinalFormatting_tagPresent _ _
    (foldl_hybridStep_preserves phs artifacts k hk hfrags keys (template, 0) hkeys hpres)

/-- C5 (amended).  A fragment whose extraction status is not success is
skipped at formatting time — its key is absent from the formatted
placeholders — and the assembly driver, which substitutes exactly the
formatted placeholders, never substitutes its token: when every batch
fragment is a scalar (simple_text, string payload) fragment with a
brace-free key, the literal token of the failed key is still present in
the final document.  (Without the scalar restriction the token can be
destroyed: a structural substitution removes its matched paragraph
wholesale, see the counterexample.) -/
theorem failed_fragment_placeholder_untouched
    (phs : List (String × Fragment)) (log : List (String × String)) (k : String)
    (template : List Block) (artifacts : String → Option (List Block))
    (hfail : statusOf log k ≠ some ("success"))
    (hk : braceFree k.toList)
    (hall : ∀ p ∈ phs, braceFree p.1.toList ∧ p.2.ctype = ("simple_text") ∧
      ∃ s, p.2.content = Payload.str s)
    (hpres : tagPresent template (tagOf k)) :
    k ∉ formattedPlaceholders phs log ∧
    tagPresent
      (generate_document template (formattedPlaceholders phs log) phs artifacts).1
      (tagOf k) := by
  constructor
  · intro hmem
    obtain ⟨f, _, hst⟩ := mem_formattedPlaceholders phs log k hmem
    exact hfail hst
  · apply generate_document_preserves template _ phs artifacts k hk ?_ hall hpres
    intro key hkeymem heq
    obtain ⟨f, _, hst⟩ := mem_formattedPlaceholders phs log key hkeymem
    rw [heq] at hst
    exact hfail hst

/-- Witness for C5: fragment a succeeded, fragment b failed; in the final
document the a token is substitutable while the b token is untouched. -/
theorem failed_fragment_placeholder_untouched_witness :
    ("b") ∉ formattedPlaceholders
        [(("a"), Fragment.mk ("simple_text") (Payload.str ("X")))]
        [(("a"), ("success")), (("b"), ("failed"))] ∧
    tagPresent
      (generate_document
        [Block.para { runs := [Run.mk (tagOf ("a") ++ ' ' :: tagOf ("b")) none none none none] }]
        (formattedPlaceholders
          [(("a"), Fragment.mk ("simple_text") (Payload.str ("X")))]
          [(("a"), ("success")), (("b"), ("failed"))])
        [(("a"), Fragment.mk ("simple_text") (Payload.str ("X")))]
        (fun _ => none)).1
      (tagOf ("b")) :=
  failed_fragment_placeholder_untouched _ _ _ _ _
    (by decide) (by decide)
    (by
      intro p hp
      rw [List.mem_singleton] at hp
      subst hp
      exact ⟨by decide, rfl, ⟨("X"), rfl⟩⟩)
    (by decide)

/-- Counterexample for C5 as stated: fragment a is a table fragment whose
placeholder shares its paragraph with the token of the failed fragment b.
Fragment b is failed and present in the template, and a is the only
formatted placeholder; yet the structural substitution for a removes the
matched paragraph wholesale, so the literal b token is gone from the final
output document — it does not remain untouched. -/
theorem failed_token_destroyed_by_structural_counterexample :
    statusOf [(("a"), ("success")), (("b"), ("failed"))] ("b") ≠ some ("success") ∧
    tagPresent
      [Block.para { runs := [Run.mk (tagOf ("a") ++ ' ' :: tagOf ("b")) none none none none] }]
      (tagOf ("b")) ∧
    formattedPlaceholders
      [(("a"), Fragment.mk ("table") (Payload.table [("h")] [[("c")]]))]
      [(("a"), ("success")), (("b"), ("failed"))] = [("a")] ∧
    ¬ tagPresent
      (generate_document
        [Block.para { runs := [Run.mk (tagOf ("a") ++ ' ' :: tagOf ("b")) none none none none] }]
        (formattedPlaceholders
          [(("a"), Fragment.mk ("table") (Payload.table [("h")] [[("c")]]))]
          [(("a"), ("success")), (("b"), ("failed"))])
        [(("a"), Fragment.mk ("table") (Payload.table [("h")] [[("c")]]))]
        (fun _ => some [Block.para { runs := [] }])).1
      (tagOf ("b")) := by decide
